import Mathlib

set_option autoImplicit false
set_option maxRecDepth 10000

/-!
Verification of two one-shot cleanup utilities:

* `Wiper` embeds `src/scripts/cleanup-databases.py`: for each database name in
  a fixed list, enumerate its collections and delete all documents from every
  collection whose name does not start with `system.`, logging per-collection
  failures and continuing.
* `Purger` embeds `src/scripts/cleanup-redis.py`: scan a key-value store for
  keys matching a fixed glob pattern, ask for confirmation, and on a confirmed
  answer delete the matched keys one at a time, printing progress every 100th
  deletion.

The stores are modelled explicitly (document store: association list from
database name to a list of collections, each a name with a document count;
key-value store: list of keys).  Each run is a pure function from the store
and the environment inputs (connection success, injected per-item failures,
the confirmation answer) to the final store, a trace of observable events and
the process exit code.
-/

/-- Python `s.startswith(p)` on the underlying character lists (the first argument is
the candidate string, the second the candidate head).  Defined on `List Char`
so that it reduces inside the kernel. -/
def charsStartWith : List Char → List Char → Bool
  | [], _ => true
  | _ :: _, [] => false
  | p :: ps, c :: cs => p == c && charsStartWith ps cs

/-- Python `s.startswith(p)`: the string `s` starts with `p`. -/
def strStartsWith (s p : String) : Bool := charsStartWith p.data s.data

/-- Python `s.strip()`: remove leading and trailing whitespace. -/
def strTrim (s : String) : String :=
  ⟨((s.data.dropWhile Char.isWhitespace).reverse.dropWhile Char.isWhitespace).reverse⟩

/-- Python `s.lower()`: lowercase every character. -/
def strToLower (s : String) : String := ⟨s.data.map Char.toLower⟩

namespace Purger

/-- The fixed glob pattern `inventory:event:processed:*` from the script. -/
def PATTERN : String := "inventory:event:processed:*"

/-- Glob matching on character lists, as the key-value store's `KEYS` command
interprets patterns: `*` matches any sequence, `?` any single character,
everything else matches literally.  The extra `Nat` argument is recursion
fuel; `globMatch` supplies enough for every reachable case, keeping the
function structurally recursive so that it reduces inside the kernel. -/
def globMatchFuel : Nat → List Char → List Char → Bool
  | 0, _, _ => false
  | fuel + 1, ps, ks =>
    match ps, ks with
    | [], [] => true
    | '*' :: ps, [] => globMatchFuel fuel ps []
    | '*' :: ps, k :: ks => globMatchFuel fuel ps (k :: ks) || globMatchFuel fuel ('*' :: ps) ks
    | '?' :: ps, _ :: ks => globMatchFuel fuel ps ks
    | p :: ps, k :: ks => (p == k) && globMatchFuel fuel ps ks
    | _ :: _, [] => false
    | [], _ :: _ => false

/-- A key matches a glob pattern. -/
def globMatch (p k : String) : Bool :=
  globMatchFuel (p.data.length + k.data.length + 1) p.data k.data

/-- The key-value store: the set of keys currently present, as a list. -/
abbrev RStore := List String

/-- The scan `r.keys(pattern)`: all keys of the store matching the fixed pattern. -/
def keysScan (s : RStore) : List String := s.filter (fun k => globMatch PATTERN k)

/-- The call `r.delete(key)`: remove a key from the store. -/
def delKey (s : RStore) (k : String) : RStore := s.filter (fun x => x != k)

/-- Observable events of a Purger run. -/
inductive PEvent where
  | noKeys
  | prompt (n : Nat)
  | cancelled
  | deleteCall (k : String)
  | progress (deleted total : Nat)
  | doneReport (n : Nat)
  | connFailed
deriving DecidableEq, Repr

/-- The check `confirm = input(...).strip().lower()` followed by the `confirm != 'yes'`
test: the answer confirms deletion exactly when its trimmed, lowercased form
is the string `yes`. -/
def confirmCheck (c : String) : Bool := strToLower (strTrim c) == "yes"

/-- The deletion loop: delete each matched key one at a time, counting
deletions and printing a progress message after every 100th. -/
def deleteLoop (total : Nat) : List String → RStore → Nat → RStore × List PEvent
  | [], s, _ => (s, [])
  | k :: ks, s, deleted =>
    ((deleteLoop total ks (delKey s k) (deleted + 1)).1,
     PEvent.deleteCall k ::
       ((if (deleted + 1) % 100 == 0 then [PEvent.progress (deleted + 1) total] else []) ++
         (deleteLoop total ks (delKey s k) (deleted + 1)).2))

/-- One run of the Purger: connect (liveness check), scan, preview and prompt,
then delete on a confirmed answer.  Returns the final store, the event trace
and the exit code. -/
def runPurger (connectOk : Bool) (confirm : String) (s : RStore) :
    RStore × List PEvent × Nat :=
  if connectOk then
    if (keysScan s).isEmpty then (s, [PEvent.noKeys], 0)
    else if !confirmCheck confirm then
      (s, [PEvent.prompt (keysScan s).length, PEvent.cancelled], 0)
    else
      ((deleteLoop (keysScan s).length (keysScan s) s 0).1,
       PEvent.prompt (keysScan s).length ::
         ((deleteLoop (keysScan s).length (keysScan s) s 0).2 ++
           [PEvent.doneReport (keysScan s).length]), 0)
  else (s, [PEvent.connFailed], 1)

/-- The keys whose deletion a trace records, in order. -/
def deleteCallsP (evs : List PEvent) : List String :=
  evs.filterMap (fun e =>
    match e with
    | PEvent.deleteCall k => some k
    | _ => none)

/-- The progress messages a trace records, in order, each as the pair of the
running deletion count and the announced total. -/
def progressReports (evs : List PEvent) : List (Nat × Nat) :=
  evs.filterMap (fun e =>
    match e with
    | PEvent.progress d t => some (d, t)
    | _ => none)

/-- A concrete store of 250 distinct keys, all matching the fixed pattern. -/
def w250 : RStore :=
  (List.range 250).map (fun i => "inventory:event:processed:" ++ toString i)

end Purger

namespace Wiper

/-- The fixed list of database names from the script. -/
def DATABASES : List String := ["inventory", "order", "payment", "product", "auth"]

/-- A collection: its name together with its current document count. -/
abbrev Coll := String × Nat

/-- A database: its list of collections. -/
abbrev Database := List Coll

/-- The document store: an association list from database name to database. -/
abbrev Store := List (String × Database)

/-- The collection names of one database, in order. -/
def collNames : Database → List String
  | [] => []
  | p :: rest => p.1 :: collNames rest

/-- The document count of the named collection inside one database, zero when
the collection is absent. -/
def collCount : Database → String → Nat
  | [], _ => 0
  | p :: rest, c => if p.1 == c then p.2 else collCount rest c

/-- Empty the named collection inside one database. -/
def zeroColl : Database → String → Database
  | [], _ => []
  | p :: rest, c => (if p.1 == c then (p.1, 0) else p) :: zeroColl rest c

/-- The call `db.list_collection_names()`: the collection names of a database; a
database absent from the store has none. -/
def list_collection_names : Store → String → List String
  | [], _ => []
  | e :: rest, db => if e.1 == db then collNames e.2 else list_collection_names rest db

/-- The call `collection.count_documents` with the empty filter: the document count of a collection,
zero when the database or the collection is absent. -/
def count_documents : Store → String → String → Nat
  | [], _, _ => 0
  | e :: rest, db, c =>
    if e.1 == db then collCount e.2 c else count_documents rest db c

/-- The call `collection.delete_many` with the empty filter: empty the named collection of the named
database. -/
def delete_many : Store → String → String → Store
  | [], _, _ => []
  | e :: rest, db, c =>
    (if e.1 == db then (e.1, zeroColl e.2 c) else e) :: delete_many rest db c

/-- Observable events of a Wiper run. -/
inductive WEvent where
  | noCollections (db : String)
  | deleteCall (db c : String)
  | deletedOk (db c : String) (count : Nat)
  | cleanFailed (db c : String)
  | reportSuccess
  | closedConn
  | connError
deriving DecidableEq, Repr

/-- The inner loop over the collections of one database: skip `system.`
collections; otherwise count the documents and delete them all, and when the
delete raises an injected error (`fails db c`), catch it, log the failure and
continue with the store unchanged. -/
def processColls (fails : String → String → Bool) (db : String) :
    List String → Store → Store × List WEvent
  | [], s => (s, [])
  | c :: rest, s =>
    if strStartsWith c "system." then processColls fails db rest s
    else if fails db c then
      ((processColls fails db rest s).1,
       WEvent.deleteCall db c :: WEvent.cleanFailed db c ::
         (processColls fails db rest s).2)
    else
      ((processColls fails db rest (delete_many s db c)).1,
       WEvent.deleteCall db c :: WEvent.deletedOk db c (count_documents s db c) ::
         (processColls fails db rest (delete_many s db c)).2)

/-- The outer loop over the fixed database list: enumerate each database's
collections, report when there are none and continue, otherwise clean each
collection in turn. -/
def processDBs (fails : String → String → Bool) :
    List String → Store → Store × List WEvent
  | [], s => (s, [])
  | db :: rest, s =>
    if (list_collection_names s db).isEmpty then
      ((processDBs fails rest s).1,
       WEvent.noCollections db :: (processDBs fails rest s).2)
    else
      ((processDBs fails rest (processColls fails db (list_collection_names s db) s).1).1,
       (processColls fails db (list_collection_names s db) s).2 ++
         (processDBs fails rest (processColls fails db (list_collection_names s db) s).1).2)

/-- One run of the Wiper: connect with a 5s server-selection timeout, clean
every listed database, report success and close the connection; a connection
failure is reported and the process exits with status 1. -/
def runWiper (fails : String → String → Bool) (connectOk : Bool) (s : Store) :
    Store × List WEvent × Nat :=
  if connectOk then
    ((processDBs fails DATABASES s).1,
     (processDBs fails DATABASES s).2 ++ [WEvent.reportSuccess, WEvent.closedConn], 0)
  else (s, [WEvent.connError], 1)

/-- The (database, collection) pairs whose deletion a trace records, in
order. -/
def deleteCallsW (evs : List WEvent) : List (String × String) :=
  evs.filterMap (fun e =>
    match e with
    | WEvent.deleteCall db c => some (db, c)
    | _ => none)

/-- The delete calls a run starting from store `s` issues for a given list of
database names: every enumerated collection not carrying the `system.`
prefix, tagged with its database. -/
def wouldDelete (s : Store) : List String → List (String × String)
  | [] => []
  | db :: rest =>
    ((list_collection_names s db).filter (fun c => !strStartsWith c "system.")).map
        (fun c => (db, c)) ++
      wouldDelete s rest

/-- Every collection named `c` of every store entry named `db` currently
holds zero documents. -/
def allZero (s : Store) (db c : String) : Prop :=
  ∀ e ∈ s, e.1 = db → ∀ p ∈ e.2, p.1 = c → p.2 = 0

/-- A concrete document store used to instantiate the Wiper theorems: two of
the listed databases are present (one with a `system.` collection), one
unlisted database is present, and the other listed databases are absent. -/
def wStore : Store :=
  [("inventory", [("events", 3), ("system.profile", 2)]),
   ("order", [("orders", 5)]),
   ("extra", [("keep", 7)])]

end Wiper

namespace Purger

theorem deleteLoop_store (total : Nat) (ks : List String) (s : RStore) (d : Nat) :
    (deleteLoop total ks s d).1 = ks.foldl delKey s := by
  induction ks generalizing s d with
  | nil => rfl
  | cons k ks ih => simp [deleteLoop, ih]

theorem deleteCallsP_wrap (n m : Nat) (evs : List PEvent) :
    deleteCallsP (PEvent.prompt n :: (evs ++ [PEvent.doneReport m])) = deleteCallsP evs := by
  simp [deleteCallsP]

theorem progressReports_wrap (n m : Nat) (evs : List PEvent) :
    progressReports (PEvent.prompt n :: (evs ++ [PEvent.doneReport m])) =
      progressReports evs := by
  simp [progressReports]

theorem deleteLoop_calls (total : Nat) (ks : List String) (s : RStore) (d : Nat) :
    deleteCallsP (deleteLoop total ks s d).2 = ks := by
  induction ks generalizing s d with
  | nil => rfl
  | cons k ks ih =>
    cases h : (d + 1) % 100 == 0 <;> simp [deleteLoop, deleteCallsP, h] <;>
      simpa [deleteCallsP] using ih (delKey s k) (d + 1)

theorem deleteLoop_progress (total : Nat) (ks : List String) (s : RStore) (d : Nat) :
    progressReports (deleteLoop total ks s d).2 =
      ((List.range' (d + 1) ks.length).filter (fun m => m % 100 == 0)).map
        (fun m => (m, total)) := by
  induction ks generalizing s d with
  | nil => rfl
  | cons k ks ih =>
    cases h : (d + 1) % 100 == 0 <;>
      simp [deleteLoop, progressReports, h, List.range'_succ, List.filter_cons] <;>
        simpa [progressReports] using ih (delKey s k) (d + 1)

theorem mem_deleteCallsP {k : String} {evs : List PEvent}
    (h : PEvent.deleteCall k ∈ evs) : k ∈ deleteCallsP evs :=
  List.mem_filterMap.2 ⟨PEvent.deleteCall k, h, rfl⟩

theorem runPurger_confirmed (c : String) (s : RStore)
    (hne : (keysScan s).isEmpty = false) (hc : confirmCheck c = true) :
    runPurger true c s =
      ((deleteLoop (keysScan s).length (keysScan s) s 0).1,
       PEvent.prompt (keysScan s).length ::
         ((deleteLoop (keysScan s).length (keysScan s) s 0).2 ++
           [PEvent.doneReport (keysScan s).length]), 0) := by
  simp [runPurger, hne, hc]

theorem count_delKey (s : RStore) (k j : String) (h : j ≠ k) :
    (delKey s k).count j = s.count j := by
  refine List.count_filter ?_
  simp [h]

theorem count_foldl_delKey (ks : List String) (s : RStore) (j : String) (h : j ∉ ks) :
    (ks.foldl delKey s).count j = s.count j := by
  induction ks generalizing s with
  | nil => rfl
  | cons k ks ih =>
    rw [List.mem_cons, not_or] at h
    rw [List.foldl_cons, ih _ h.2, count_delKey _ _ _ h.1]

theorem not_mem_keysScan {j : String} (s : RStore) (h : globMatch PATTERN j = false) :
    j ∉ keysScan s := by
  intro hj
  have := (List.mem_filter.1 hj).2
  rw [h] at this
  exact Bool.false_ne_true this

/-- C4: when the pattern scan returns zero matching keys, the Purger reports
that no keys were found, shows no confirmation prompt, deletes nothing, and
exits with status zero, leaving the store unchanged. -/
theorem zero_matches_no_prompt_no_deletion (c : String) (s : RStore)
    (h : keysScan s = []) :
    (runPurger true c s).1 = s ∧
      PEvent.noKeys ∈ (runPurger true c s).2.1 ∧
      (∀ n, PEvent.prompt n ∉ (runPurger true c s).2.1) ∧
      (∀ k, PEvent.deleteCall k ∉ (runPurger true c s).2.1) ∧
      (runPurger true c s).2.2 = 0 := by
  simp [runPurger, h]

/-- C4 witness: a store with one non-matching key. -/
theorem zero_matches_no_prompt_no_deletion_witness :
    keysScan ["order:item:1"] = [] ∧
      ((runPurger true "yes" ["order:item:1"]).1 = ["order:item:1"] ∧
        PEvent.noKeys ∈ (runPurger true "yes" ["order:item:1"]).2.1 ∧
        (∀ n, PEvent.prompt n ∉ (runPurger true "yes" ["order:item:1"]).2.1) ∧
        (∀ k, PEvent.deleteCall k ∉ (runPurger true "yes" ["order:item:1"]).2.1) ∧
        (runPurger true "yes" ["order:item:1"]).2.2 = 0) :=
  ⟨by decide, zero_matches_no_prompt_no_deletion "yes" ["order:item:1"] (by decide)⟩

/-- C3 counterexample: the confirmation input `"YES"` is not the string
`"yes"`, yet with one matching key present the run does delete it: the store
changes and a delete call is issued. -/
theorem nonyes_literal_input_still_deletes :
    ¬("YES" = "yes") ∧
      (runPurger true "YES" ["inventory:event:processed:a"]).1 ≠
        ["inventory:event:processed:a"] ∧
      PEvent.deleteCall "inventory:event:processed:a" ∈
        (runPurger true "YES" ["inventory:event:processed:a"]).2.1 := by
  decide

/-- C3 (amended): for every confirmation input whose stripped, lowercased
form is not `"yes"`, no key is deleted (the store is unchanged) and the
process exits with status zero. -/
theorem nonconfirming_input_no_deletion (c : String) (s : RStore)
    (h : confirmCheck c = false) :
    (runPurger true c s).1 = s ∧
      (∀ k, PEvent.deleteCall k ∉ (runPurger true c s).2.1) ∧
      (runPurger true c s).2.2 = 0 := by
  cases hk : (keysScan s).isEmpty <;> simp [runPurger, hk, h]

/-- C3 witness: the input `"no"` with one matching key present. -/
theorem nonconfirming_input_no_deletion_witness :
    confirmCheck "no" = false ∧
      ((runPurger true "no" ["inventory:event:processed:a"]).1 =
          ["inventory:event:processed:a"] ∧
        (∀ k, PEvent.deleteCall k ∉
          (runPurger true "no" ["inventory:event:processed:a"]).2.1) ∧
        (runPurger true "no" ["inventory:event:processed:a"]).2.2 = 0) :=
  ⟨by decide, nonconfirming_input_no_deletion "no" ["inventory:event:processed:a"] (by decide)⟩

/-- C9: the confirmation check strips surrounding whitespace and lowercases
the input before comparing with `"yes"`: `"YES"`, `"Yes"` and `"  yes  "`
confirm, a plain `"no"` does not, an input confirms exactly when its
normalized form is `"yes"`, and in a run with at least one matched key the
deletions proceed exactly for confirming inputs. -/
theorem confirmation_normalization :
    confirmCheck "YES" = true ∧ confirmCheck "Yes" = true ∧
      confirmCheck "  yes  " = true ∧ confirmCheck "no" = false ∧
      (∀ c, confirmCheck c = true ↔ strToLower (strTrim c) = "yes") ∧
      (∀ c s, (keysScan s).isEmpty = false →
        deleteCallsP (runPurger true c s).2.1 =
          if confirmCheck c then keysScan s else []) := by
  refine ⟨by decide, by decide, by decide, by decide, ?_, ?_⟩
  · intro c
    simp [confirmCheck]
  · intro c s h
    cases hc : confirmCheck c
    · simp [runPurger, h, hc, deleteCallsP]
    · rw [runPurger_confirmed c s h hc]
      rw [deleteCallsP_wrap, deleteLoop_calls]
      simp

/-- C9 witness: instantiating the run part at a store with one matched key
and the confirming input `"YES"`. -/
theorem confirmation_normalization_witness :
    (keysScan ["inventory:event:processed:a"]).isEmpty = false ∧
      deleteCallsP (runPurger true "YES" ["inventory:event:processed:a"]).2.1 =
        (if confirmCheck "YES" then keysScan ["inventory:event:processed:a"] else []) :=
  ⟨by decide,
    confirmation_normalization.2.2.2.2.2 "YES" ["inventory:event:processed:a"] (by decide)⟩

/-- C10: a Purger run only ever deletes keys returned by the initial pattern
scan: every delete call in the trace names a scanned key, every key not
matching the pattern keeps its multiplicity in the store, and a confirmed run
deletes exactly the scanned keys. -/
theorem only_scanned_keys_deleted (ok : Bool) (c : String) (s : RStore) :
    (∀ k, PEvent.deleteCall k ∈ (runPurger ok c s).2.1 → k ∈ keysScan s) ∧
      (∀ j, globMatch PATTERN j = false →
        (runPurger ok c s).1.count j = s.count j) ∧
      (ok = true → confirmCheck c = true →
        deleteCallsP (runPurger ok c s).2.1 = keysScan s) := by
  cases ok with
  | false =>
    refine ⟨?_, ?_, ?_⟩
    · intro k hk
      simp [runPurger] at hk
    · intro j _
      simp [runPurger]
    · intro h
      exact absurd h (by decide)
  | true =>
    cases hk : (keysScan s).isEmpty with
    | true =>
      have hnil : keysScan s = [] := List.isEmpty_iff.1 hk
      refine ⟨?_, ?_, ?_⟩
      · intro k hmem
        simp [runPurger, hk] at hmem
      · intro j _
        simp [runPurger, hk]
      · intro _ _
        simp [runPurger, hk, deleteCallsP, hnil]
    | false =>
      cases hc : confirmCheck c with
      | false =>
        refine ⟨?_, ?_, ?_⟩
        · intro k hmem
          simp [runPurger, hk, hc] at hmem
        · intro j _
          simp [runPurger, hk, hc]
        · intro _ h
          simp [hc] at h
      | true =>
        have htrace : deleteCallsP (runPurger true c s).2.1 = keysScan s := by
          rw [runPurger_confirmed c s hk hc]
          rw [deleteCallsP_wrap, deleteLoop_calls]
        refine ⟨?_, ?_, fun _ _ => htrace⟩
        · intro k hmem
          have := mem_deleteCallsP hmem
          rwa [htrace] at this
        · intro j hj
          have hstore : (runPurger true c s).1 = (keysScan s).foldl delKey s := by
            rw [runPurger_confirmed c s hk hc]
            exact deleteLoop_store _ _ _ _
          rw [hstore]
          exact count_foldl_delKey _ _ _ (not_mem_keysScan s hj)

/-- C10 witness: a store holding one matching and one non-matching key, with
a confirming answer. -/
theorem only_scanned_keys_deleted_witness :
    (∀ k, PEvent.deleteCall k ∈
        (runPurger true "yes" ["inventory:event:processed:a", "order:item:1"]).2.1 →
      k ∈ keysScan ["inventory:event:processed:a", "order:item:1"]) ∧
      (∀ j, globMatch PATTERN j = false →
        (runPurger true "yes" ["inventory:event:processed:a", "order:item:1"]).1.count j =
          (["inventory:event:processed:a", "order:item:1"] : RStore).count j) ∧
      (true = true → confirmCheck "yes" = true →
        deleteCallsP
            (runPurger true "yes" ["inventory:event:processed:a", "order:item:1"]).2.1 =
          keysScan ["inventory:event:processed:a", "order:item:1"]) :=
  only_scanned_keys_deleted true "yes" ["inventory:event:processed:a", "order:item:1"]

/-- C7: whenever the scan matches exactly 250 keys and the answer confirms,
the run issues exactly 250 delete calls and prints exactly two progress
messages, after the 100th and the 200th deletion. -/
theorem run_250_keys_two_progress (c : String) (s : RStore)
    (h : (keysScan s).length = 250) (hc : confirmCheck c = true) :
    (deleteCallsP (runPurger true c s).2.1).length = 250 ∧
      progressReports (runPurger true c s).2.1 = [(100, 250), (200, 250)] := by
  have hne : (keysScan s).isEmpty = false := by
    cases hk : keysScan s with
    | nil => rw [hk] at h; exact absurd h (by decide)
    | cons a l => simp
  rw [runPurger_confirmed c s hne hc]
  constructor
  · rw [deleteCallsP_wrap, deleteLoop_calls]
    exact h
  · rw [progressReports_wrap, deleteLoop_progress, h]
    decide

end Purger

namespace Wiper

theorem collNames_zeroColl (d : Database) (c : String) :
    collNames (zeroColl d c) = collNames d := by
  induction d with
  | nil => rfl
  | cons p rest ih =>
    by_cases h : p.1 = c <;> simp [zeroColl, collNames, h, ih]

theorem collCount_zeroColl_same (d : Database) (c : String) :
    collCount (zeroColl d c) c = 0 := by
  induction d with
  | nil => rfl
  | cons p rest ih =>
    by_cases h : p.1 = c <;> simp [zeroColl, collCount, h, ih]

theorem collCount_zeroColl_other (d : Database) (c c2 : String) (h : c2 ≠ c) :
    collCount (zeroColl d c) c2 = collCount d c2 := by
  induction d with
  | nil => rfl
  | cons p rest ih =>
    obtain ⟨pn, pv⟩ := p
    by_cases h1 : pn = c
    · subst h1
      have h2 : ¬(pn = c2) := fun hh => h hh.symm
      simp [zeroColl, collCount, h2, ih]
    · by_cases h2 : pn = c2 <;> simp [zeroColl, collCount, h1, h2, h, ih]

theorem collCount_eq_zero (d : Database) (c : String)
    (h : ∀ p ∈ d, p.1 = c → p.2 = 0) : collCount d c = 0 := by
  induction d with
  | nil => rfl
  | cons p rest ih =>
    by_cases h1 : p.1 = c
    · simp [collCount, h1, h p (by simp) h1]
    · simp [collCount, h1]
      exact ih fun q hq => h q (by simp [hq])

theorem names_delete_many (s : Store) (db c db2 : String) :
    list_collection_names (delete_many s db c) db2 = list_collection_names s db2 := by
  induction s with
  | nil => rfl
  | cons e rest ih =>
    obtain ⟨en, ed⟩ := e
    by_cases h1 : en = db
    · subst h1
      by_cases h2 : en = db2 <;>
        simp [delete_many, list_collection_names, h2, ih, collNames_zeroColl]
    · by_cases h2 : en = db2
      · have hne : ¬(db2 = db) := fun hh => h1 (h2.trans hh)
        simp [delete_many, list_collection_names, h1, h2, hne, ih]
      · simp [delete_many, list_collection_names, h1, h2, ih]

theorem count_delete_many (s : Store) (db c db2 c2 : String) :
    count_documents (delete_many s db c) db2 c2 =
      if db2 = db ∧ c2 = c then 0 else count_documents s db2 c2 := by
  induction s with
  | nil => simp [delete_many, count_documents]
  | cons e rest ih =>
    obtain ⟨en, ed⟩ := e
    by_cases h1 : en = db
    · subst h1
      by_cases h2 : en = db2
      · subst h2
        by_cases h3 : c2 = c
        · subst h3
          simp [delete_many, count_documents, collCount_zeroColl_same]
        · simp [delete_many, count_documents, h3, collCount_zeroColl_other ed c c2 h3]
      · have hdb : ¬(db2 = en) := fun hh => h2 hh.symm
        simp [delete_many, count_documents, h2, hdb, ih]
    · by_cases h2 : en = db2
      · subst h2
        have hcond : ¬(en = db ∧ c2 = c) := fun hh => h1 hh.1
        simp [delete_many, count_documents, h1, hcond]
      · simp [delete_many, count_documents, h1, h2, ih]

theorem names_processColls (f : String → String → Bool) (d : String)
    (colls : List String) (s : Store) (db2 : String) :
    list_collection_names (processColls f d colls s).1 db2 =
      list_collection_names s db2 := by
  induction colls generalizing s with
  | nil => rfl
  | cons c rest ih =>
    cases hs : strStartsWith c "system."
    · cases hf : f d c
      · simp [processColls, hs, hf, ih, names_delete_many]
      · simp [processColls, hs, hf, ih]
    · simp [processColls, hs, ih]

theorem names_processDBs (f : String → String → Bool) (dbs : List String)
    (s : Store) (db2 : String) :
    list_collection_names (processDBs f dbs s).1 db2 = list_collection_names s db2 := by
  induction dbs generalizing s with
  | nil => rfl
  | cons d rest ih =>
    cases he : (list_collection_names s d).isEmpty
    · simp [processDBs, he, ih, names_processColls]
    · simp [processDBs, he, ih]

theorem count_processColls_system (f : String → String → Bool) (d : String)
    (colls : List String) (s : Store) (db2 c2 : String)
    (hc2 : strStartsWith c2 "system." = true) :
    count_documents (processColls f d colls s).1 db2 c2 =
      count_documents s db2 c2 := by
  induction colls generalizing s with
  | nil => rfl
  | cons c rest ih =>
    cases hs : strStartsWith c "system."
    · cases hf : f d c
      · have hne : ¬(db2 = d ∧ c2 = c) := by
          rintro ⟨-, rfl⟩
          rw [hc2] at hs
          simp at hs
        simp [processColls, hs, hf, ih, count_delete_many, hne]
      · simp [processColls, hs, hf, ih]
    · simp [processColls, hs, ih]

theorem count_processColls_otherdb (f : String → String → Bool) (d : String)
    (colls : List String) (s : Store) (db2 c2 : String) (h : db2 ≠ d) :
    count_documents (processColls f d colls s).1 db2 c2 =
      count_documents s db2 c2 := by
  induction colls generalizing s with
  | nil => rfl
  | cons c rest ih =>
    cases hs : strStartsWith c "system."
    · cases hf : f d c
      · have hne : ¬(db2 = d ∧ c2 = c) := fun hh => h hh.1
        simp [processColls, hs, hf, ih, count_delete_many, hne]
      · simp [processColls, hs, hf, ih]
    · simp [processColls, hs, ih]

theorem count_processDBs_system (f : String → String → Bool) (dbs : List String)
    (s : Store) (db2 c2 : String) (hc2 : strStartsWith c2 "system." = true) :
    count_documents (processDBs f dbs s).1 db2 c2 = count_documents s db2 c2 := by
  induction dbs generalizing s with
  | nil => rfl
  | cons d rest ih =>
    cases he : (list_collection_names s d).isEmpty
    · simp only [processDBs, he, Bool.false_eq_true, if_false, ite_false]
      rw [ih, count_processColls_system _ _ _ _ _ _ hc2]
    · simp only [processDBs, he, if_true, ite_true]
      exact ih s

theorem count_processDBs_emptydb (f : String → String → Bool) (dbs : List String)
    (s : Store) (db c : String) (h : list_collection_names s db = []) :
    count_documents (processDBs f dbs s).1 db c = count_documents s db c := by
  induction dbs generalizing s with
  | nil => rfl
  | cons d rest ih =>
    cases he : (list_collection_names s d).isEmpty
    · have hd : db ≠ d := by
        rintro rfl
        rw [h] at he
        simp at he
      simp only [processDBs, he, Bool.false_eq_true, if_false, ite_false]
      rw [ih _ (by rw [names_processColls]; exact h),
        count_processColls_otherdb _ _ _ _ _ _ hd]
    · simp only [processDBs, he, if_true, ite_true]
      exact ih s h

theorem deleteCallsW_append (a b : List WEvent) :
    deleteCallsW (a ++ b) = deleteCallsW a ++ deleteCallsW b := by
  simp [deleteCallsW]

theorem deleteCallsW_processColls (f : String → String → Bool) (d : String)
    (colls : List String) (s : Store) :
    deleteCallsW (processColls f d colls s).2 =
      (colls.filter (fun c => !strStartsWith c "system.")).map (fun c => (d, c)) := by
  induction colls generalizing s with
  | nil => rfl
  | cons c rest ih =>
    cases hs : strStartsWith c "system."
    · cases hf : f d c <;>
        simp [processColls, deleteCallsW, hs, hf, List.filter_cons] <;>
          simpa [deleteCallsW] using ih _
    · simp [processColls, hs, List.filter_cons, ih]

theorem wouldDelete_processColls (f : String → String → Bool) (d : String)
    (colls : List String) (s : Store) (dbs : List String) :
    wouldDelete (processColls f d colls s).1 dbs = wouldDelete s dbs := by
  induction dbs with
  | nil => rfl
  | cons d2 rest ih => simp [wouldDelete, names_processColls, ih]

theorem deleteCallsW_processDBs (f : String → String → Bool) (dbs : List String)
    (s : Store) :
    deleteCallsW (processDBs f dbs s).2 = wouldDelete s dbs := by
  induction dbs generalizing s with
  | nil => rfl
  | cons d rest ih =>
    cases he : (list_collection_names s d).isEmpty
    · simp only [processDBs, he, Bool.false_eq_true, if_false, ite_false, wouldDelete]
      rw [deleteCallsW_append, deleteCallsW_processColls, ih, wouldDelete_processColls]
    · have hnil : list_collection_names s d = [] := List.isEmpty_iff.1 he
      simp only [processDBs, he, if_true, ite_true, wouldDelete]
      have hcons : deleteCallsW (WEvent.noCollections d :: (processDBs f rest s).2) =
          deleteCallsW (processDBs f rest s).2 := by
        simp [deleteCallsW]
      rw [hcons, ih, hnil]
      simp

theorem mem_deleteCallsW {db c : String} {evs : List WEvent}
    (h : WEvent.deleteCall db c ∈ evs) : (db, c) ∈ deleteCallsW evs :=
  List.mem_filterMap.2 ⟨WEvent.deleteCall db c, h, rfl⟩

theorem mem_wouldDelete {s : Store} {dbs : List String} {db c : String}
    (h : (db, c) ∈ wouldDelete s dbs) :
    c ∈ list_collection_names s db ∧ strStartsWith c "system." = false := by
  induction dbs with
  | nil => simp [wouldDelete] at h
  | cons d rest ih =>
    rw [wouldDelete] at h
    rcases List.mem_append.1 h with h | h
    · obtain ⟨c2, hc2, heq⟩ := List.mem_map.1 h
      obtain ⟨hmem, hflt⟩ := List.mem_filter.1 hc2
      obtain ⟨rfl, rfl⟩ := Prod.mk.injEq _ _ _ _ ▸ heq
      exact ⟨hmem, by simpa using hflt⟩
    · exact ih h

theorem noCollections_mem (f : String → String → Bool) (dbs : List String)
    (s : Store) (db : String) (hdb : db ∈ dbs)
    (h : list_collection_names s db = []) :
    WEvent.noCollections db ∈ (processDBs f dbs s).2 := by
  induction dbs generalizing s with
  | nil => cases hdb
  | cons d rest ih =>
    by_cases hd : d = db
    · subst hd
      have he : (list_collection_names s d).isEmpty = true := by rw [h]; rfl
      simp [processDBs, he]
    · have hdb2 : db ∈ rest := by
        rcases List.mem_cons.1 hdb with h1 | h1
        · exact absurd h1.symm hd
        · exact h1
      cases he : (list_collection_names s d).isEmpty
      · simp only [processDBs, he, Bool.false_eq_true, if_false, ite_false]
        exact List.mem_append.2
          (Or.inr (ih _ hdb2 (by rw [names_processColls]; exact h)))
      · simp only [processDBs, he, if_true, ite_true]
        exact List.mem_cons.2 (Or.inr (ih _ hdb2 h))

theorem cleanFailed_mem_colls (f : String → String → Bool) (d : String)
    (colls : List String) (s : Store) (c : String) (hc : c ∈ colls)
    (hs : strStartsWith c "system." = false) (hf : f d c = true) :
    WEvent.cleanFailed d c ∈ (processColls f d colls s).2 := by
  induction colls generalizing s with
  | nil => cases hc
  | cons c0 rest ih =>
    by_cases h0 : c0 = c
    · subst h0
      simp [processColls, hs, hf]
    · have hc2 : c ∈ rest := by
        rcases List.mem_cons.1 hc with h1 | h1
        · exact absurd h1.symm h0
        · exact h1
      cases hs0 : strStartsWith c0 "system."
      · cases hf0 : f d c0
        · simp only [processColls, hs0, hf0, Bool.false_eq_true, if_false, ite_false]
          exact List.mem_cons.2 (Or.inr (List.mem_cons.2 (Or.inr (ih _ hc2))))
        · simp only [processColls, hs0, hf0, Bool.false_eq_true, if_false, ite_false,
            if_true, ite_true]
          exact List.mem_cons.2 (Or.inr (List.mem_cons.2 (Or.inr (ih _ hc2))))
      · simp only [processColls, hs0, if_true, ite_true]
        exact ih _ hc2

theorem cleanFailed_mem_dbs (f : String → String → Bool) (dbs : List String)
    (s : Store) (db c : String) (hdb : db ∈ dbs)
    (hc : c ∈ list_collection_names s db) (hs : strStartsWith c "system." = false)
    (hf : f db c = true) :
    WEvent.cleanFailed db c ∈ (processDBs f dbs s).2 := by
  induction dbs generalizing s with
  | nil => cases hdb
  | cons d rest ih =>
    by_cases hd : d = db
    · subst hd
      have he : (list_collection_names s d).isEmpty = false := by
        cases hl : list_collection_names s d
        · rw [hl] at hc; cases hc
        · rfl
      simp only [processDBs, he, Bool.false_eq_true, if_false, ite_false]
      exact List.mem_append.2 (Or.inl (cleanFailed_mem_colls f d _ s c hc hs hf))
    · have hdb2 : db ∈ rest := by
        rcases List.mem_cons.1 hdb with h1 | h1
        · exact absurd h1.symm hd
        · exact h1
      cases he : (list_collection_names s d).isEmpty
      · simp only [processDBs, he, Bool.false_eq_true, if_false, ite_false]
        exact List.mem_append.2
          (Or.inr (ih _ hdb2 (by rw [names_processColls]; exact hc)))
      · simp only [processDBs, he, if_true, ite_true]
        exact List.mem_cons.2 (Or.inr (ih _ hdb2 hc))

theorem zeroColl_mem (d : Database) (c : String) {p : Coll}
    (hp : p ∈ zeroColl d c) (hc : p.1 = c) : p.2 = 0 := by
  induction d with
  | nil => cases hp
  | cons q rest ih =>
    rw [zeroColl] at hp
    rcases List.mem_cons.1 hp with rfl | hp2
    · by_cases hq : q.1 = c
      · simp [hq]
      · rw [if_neg (by simp [hq])] at hc
        exact absurd hc hq
    · exact ih hp2

theorem zeroColl_mem_orig (d : Database) (c : String) {p : Coll}
    (hp : p ∈ zeroColl d c) : p.2 = 0 ∨ p ∈ d := by
  induction d with
  | nil => cases hp
  | cons q rest ih =>
    rw [zeroColl] at hp
    rcases List.mem_cons.1 hp with rfl | hp2
    · by_cases hq : q.1 = c
      · simp [hq]
      · simp [hq]
    · rcases ih hp2 with h | h
      · exact Or.inl h
      · exact Or.inr (List.mem_cons.2 (Or.inr h))

theorem zeroColl_eq_self (d : Database) (c : String)
    (h : ∀ p ∈ d, p.1 = c → p.2 = 0) : zeroColl d c = d := by
  induction d with
  | nil => rfl
  | cons q rest ih =>
    obtain ⟨qn, qv⟩ := q
    have hrest : zeroColl rest c = rest :=
      ih fun p hp => h p (List.mem_cons.2 (Or.inr hp))
    by_cases hq : qn = c
    · have hv : qv = 0 := h (qn, qv) (List.mem_cons.2 (Or.inl rfl)) hq
      subst hv
      simp [zeroColl, hq, hrest]
    · simp [zeroColl, hq, hrest]

theorem allZero_delete_many_self (s : Store) (db c : String) :
    allZero (delete_many s db c) db c := by
  induction s with
  | nil => intro e he; cases he
  | cons e0 rest ih =>
    intro e he h1 p hp h2
    rw [delete_many] at he
    rcases List.mem_cons.1 he with rfl | he2
    · by_cases hdb : e0.1 = db
      · rw [if_pos (by simp [hdb])] at hp
        exact zeroColl_mem e0.2 c hp h2
      · rw [if_neg (by simp [hdb])] at h1
        exact absurd h1 hdb
    · exact ih e he2 h1 p hp h2

theorem allZero_mono (s : Store) (db c db2 c2 : String) (h : allZero s db c) :
    allZero (delete_many s db2 c2) db c := by
  induction s with
  | nil => intro e he; cases he
  | cons e0 rest ih =>
    have hrest : allZero rest db c := fun e he => h e (List.mem_cons.2 (Or.inr he))
    intro e he h1 p hp h2
    rw [delete_many] at he
    rcases List.mem_cons.1 he with rfl | he2
    · by_cases hdb : e0.1 = db2
      · rw [if_pos (by simp [hdb])] at hp h1
        rcases zeroColl_mem_orig e0.2 c2 hp with hz | hz
        · exact hz
        · exact h e0 (List.mem_cons.2 (Or.inl rfl)) h1 p hz h2
      · rw [if_neg (by simp [hdb])] at hp h1
        exact h e0 (List.mem_cons.2 (Or.inl rfl)) h1 p hp h2
    · exact ih hrest e he2 h1 p hp h2

theorem delete_many_eq_self (s : Store) (db c : String) (h : allZero s db c) :
    delete_many s db c = s := by
  induction s with
  | nil => rfl
  | cons e0 rest ih =>
    obtain ⟨en, ed⟩ := e0
    have hrest : delete_many rest db c = rest :=
      ih fun e he => h e (List.mem_cons.2 (Or.inr he))
    by_cases hdb : en = db
    · subst hdb
      have hz : zeroColl ed c = ed :=
        zeroColl_eq_self ed c fun p hp =>
          h (en, ed) (List.mem_cons.2 (Or.inl rfl)) rfl p hp
      simp [delete_many, hz, hrest]
    · simp [delete_many, hdb, hrest]

theorem allZero_processColls (f : String → String → Bool) (d : String)
    (colls : List String) (s : Store) (db c : String) (h : allZero s db c) :
    allZero (processColls f d colls s).1 db c := by
  induction colls generalizing s with
  | nil => exact h
  | cons c0 rest ih =>
    cases hs : strStartsWith c0 "system."
    · cases hf : f d c0
      · simp only [processColls, hs, hf, Bool.false_eq_true, if_false, ite_false]
        exact ih _ (allZero_mono s db c d c0 h)
      · simp only [processColls, hs, hf, Bool.false_eq_true, if_false, ite_false,
          if_true, ite_true]
        exact ih _ h
    · simp only [processColls, hs, if_true, ite_true]
      exact ih _ h

theorem allZero_processDBs (f : String → String → Bool) (dbs : List String)
    (s : Store) (db c : String) (h : allZero s db c) :
    allZero (processDBs f dbs s).1 db c := by
  induction dbs generalizing s with
  | nil => exact h
  | cons d rest ih =>
    cases he : (list_collection_names s d).isEmpty
    · simp only [processDBs, he, Bool.false_eq_true, if_false, ite_false]
      exact ih _ (allZero_processColls f d _ s db c h)
    · simp only [processDBs, he, if_true, ite_true]
      exact ih _ h

theorem est_processColls (f : String → String → Bool) (d : String)
    (colls : List String) (s : Store) (c : String) (hc : c ∈ colls)
    (hs : strStartsWith c "system." = false) (hf : f d c = false) :
    allZero (processColls f d colls s).1 d c := by
  induction colls generalizing s with
  | nil => cases hc
  | cons c0 rest ih =>
    by_cases h0 : c0 = c
    · subst h0
      simp only [processColls, hs, hf, Bool.false_eq_true, if_false, ite_false]
      exact allZero_processColls f d rest _ d c0 (allZero_delete_many_self s d c0)
    · have hc2 : c ∈ rest := by
        rcases List.mem_cons.1 hc with h1 | h1
        · exact absurd h1.symm h0
        · exact h1
      cases hs0 : strStartsWith c0 "system."
      · cases hf0 : f d c0
        · simp only [processColls, hs0, hf0, Bool.false_eq_true, if_false, ite_false]
          exact ih _ hc2
        · simp only [processColls, hs0, hf0, Bool.false_eq_true, if_false, ite_false,
            if_true, ite_true]
          exact ih _ hc2
      · simp only [processColls, hs0, if_true, ite_true]
        exact ih _ hc2

theorem est_processDBs (f : String → String → Bool) (dbs : List String)
    (s : Store) (db c : String) (hdb : db ∈ dbs)
    (hc : c ∈ list_collection_names s db) (hs : strStartsWith c "system." = false)
    (hf : f db c = false) :
    allZero (processDBs f dbs s).1 db c := by
  induction dbs generalizing s with
  | nil => cases hdb
  | cons d rest ih =>
    by_cases hd : d = db
    · subst hd
      have he : (list_collection_names s d).isEmpty = false := by
        cases hl : list_collection_names s d
        · rw [hl] at hc; cases hc
        · rfl
      simp only [processDBs, he, Bool.false_eq_true, if_false, ite_false]
      exact allZero_processDBs f rest _ d c (est_processColls f d _ s c hc hs hf)
    · have hdb2 : db ∈ rest := by
        rcases List.mem_cons.1 hdb with h1 | h1
        · exact absurd h1.symm hd
        · exact h1
      cases he : (list_collection_names s d).isEmpty
      · simp only [processDBs, he, Bool.false_eq_true, if_false, ite_false]
        exact ih _ hdb2 (by rw [names_processColls]; exact hc)
      · simp only [processDBs, he, if_true, ite_true]
        exact ih _ hdb2 hc

theorem count_eq_zero_of_allZero (s : Store) (db c : String) (h : allZero s db c) :
    count_documents s db c = 0 := by
  induction s with
  | nil => rfl
  | cons e rest ih =>
    by_cases hdb : e.1 = db
    · rw [count_documents, if_pos (by simp [hdb])]
      exact collCount_eq_zero e.2 c fun p hp hpc =>
        h e (List.mem_cons.2 (Or.inl rfl)) hdb p hp hpc
    · rw [count_documents, if_neg (by simp [hdb])]
      exact ih fun e2 he2 => h e2 (List.mem_cons.2 (Or.inr he2))

theorem id_processColls (f : String → String → Bool) (d : String)
    (colls : List String) (s : Store)
    (h : ∀ c ∈ colls, strStartsWith c "system." = false → f d c = false →
      allZero s d c) :
    (processColls f d colls s).1 = s := by
  induction colls generalizing s with
  | nil => rfl
  | cons c0 rest ih =>
    cases hs : strStartsWith c0 "system."
    · cases hf : f d c0
      · have hz : allZero s d c0 := h c0 (List.mem_cons.2 (Or.inl rfl)) hs hf
        have hd := delete_many_eq_self s d c0 hz
        simp only [processColls, hs, hf, Bool.false_eq_true, if_false, ite_false, hd]
        exact ih _ fun c hc hcs hcf => h c (List.mem_cons.2 (Or.inr hc)) hcs hcf
      · simp only [processColls, hs, hf, Bool.false_eq_true, if_false, ite_false,
          if_true, ite_true]
        exact ih _ fun c hc hcs hcf => h c (List.mem_cons.2 (Or.inr hc)) hcs hcf
    · simp only [processColls, hs, if_true, ite_true]
      exact ih _ fun c hc hcs hcf => h c (List.mem_cons.2 (Or.inr hc)) hcs hcf

theorem id_processDBs (f : String → String → Bool) (dbs : List String) (s : Store)
    (h : ∀ db c, db ∈ dbs → c ∈ list_collection_names s db →
      strStartsWith c "system." = false → f db c = false → allZero s db c) :
    (processDBs f dbs s).1 = s := by
  induction dbs generalizing s with
  | nil => rfl
  | cons d rest ih =>
    cases he : (list_collection_names s d).isEmpty
    · have hid : (processColls f d (list_collection_names s d) s).1 = s :=
        id_processColls f d _ s fun c hc hcs hcf =>
          h d c (List.mem_cons.2 (Or.inl rfl)) hc hcs hcf
      simp only [processDBs, he, Bool.false_eq_true, if_false, ite_false, hid]
      exact ih _ fun db c hdb hc hcs hcf =>
        h db c (List.mem_cons.2 (Or.inr hdb)) hc hcs hcf
    · simp only [processDBs, he, if_true, ite_true]
      exact ih _ fun db c hdb hc hcs hcf =>
        h db c (List.mem_cons.2 (Or.inr hdb)) hc hcs hcf

theorem ev_processColls (f : String → String → Bool) (d : String)
    (colls : List String) (s : Store)
    (h : ∀ c ∈ colls, strStartsWith c "system." = false → f d c = false →
      allZero s d c) :
    ∀ db0 c0 n, WEvent.deletedOk db0 c0 n ∈ (processColls f d colls s).2 → n = 0 := by
  induction colls generalizing s with
  | nil =>
    intro db0 c0 n hmem
    cases hmem
  | cons c rest ih =>
    intro db0 c0 n hmem
    cases hs : strStartsWith c "system."
    · cases hf : f d c
      · have hz : allZero s d c := h c (List.mem_cons.2 (Or.inl rfl)) hs hf
        have hd : delete_many s d c = s := delete_many_eq_self s d c hz
        simp only [processColls, hs, hf, Bool.false_eq_true, if_false, ite_false,
          hd] at hmem
        rcases List.mem_cons.1 hmem with heq | hmem2
        · cases heq
        · rcases List.mem_cons.1 hmem2 with heq | hmem3
          · obtain ⟨-, -, rfl⟩ := WEvent.deletedOk.injEq _ _ _ _ _ _ ▸ heq
            exact count_eq_zero_of_allZero s d c hz
          · exact ih _ (fun c2 hc2 hcs hcf =>
              h c2 (List.mem_cons.2 (Or.inr hc2)) hcs hcf) db0 c0 n hmem3
      · simp only [processColls, hs, hf, Bool.false_eq_true, if_false, ite_false,
          if_true, ite_true] at hmem
        rcases List.mem_cons.1 hmem with heq | hmem2
        · cases heq
        · rcases List.mem_cons.1 hmem2 with heq | hmem3
          · cases heq
          · exact ih _ (fun c2 hc2 hcs hcf =>
              h c2 (List.mem_cons.2 (Or.inr hc2)) hcs hcf) db0 c0 n hmem3
    · simp only [processColls, hs, if_true, ite_true] at hmem
      exact ih _ (fun c2 hc2 hcs hcf =>
        h c2 (List.mem_cons.2 (Or.inr hc2)) hcs hcf) db0 c0 n hmem

theorem ev_processDBs (f : String → String → Bool) (dbs : List String) (s : Store)
    (h : ∀ db c, db ∈ dbs → c ∈ list_collection_names s db →
      strStartsWith c "system." = false → f db c = false → allZero s db c) :
    ∀ db0 c0 n, WEvent.deletedOk db0 c0 n ∈ (processDBs f dbs s).2 → n = 0 := by
  induction dbs generalizing s with
  | nil =>
    intro db0 c0 n hmem
    cases hmem
  | cons d rest ih =>
    intro db0 c0 n hmem
    cases he : (list_collection_names s d).isEmpty
    · have hid : (processColls f d (list_collection_names s d) s).1 = s :=
        id_processColls f d _ s fun c hc hcs hcf =>
          h d c (List.mem_cons.2 (Or.inl rfl)) hc hcs hcf
      simp only [processDBs, he, Bool.false_eq_true, if_false, ite_false,
        hid] at hmem
      rcases List.mem_append.1 hmem with hmem2 | hmem2
      · exact ev_processColls f d _ s (fun c hc hcs hcf =>
          h d c (List.mem_cons.2 (Or.inl rfl)) hc hcs hcf) db0 c0 n hmem2
      · exact ih _ (fun db c hdb hc hcs hcf =>
          h db c (List.mem_cons.2 (Or.inr hdb)) hc hcs hcf) db0 c0 n hmem2
    · simp only [processDBs, he, if_true, ite_true] at hmem
      rcases List.mem_cons.1 hmem with heq | hmem2
      · cases heq
      · exact ih _ (fun db c hdb hc hcs hcf =>
          h db c (List.mem_cons.2 (Or.inr hdb)) hc hcs hcf) db0 c0 n hmem2

/-- C1: the Wiper never issues a delete call against a collection whose name
starts with the reserved `system.` prefix, and the document count of every
system-prefixed collection is unchanged by a run. -/
theorem system_collections_never_deleted (f : String → String → Bool) (ok : Bool)
    (s : Store) (db c : String) (hc : strStartsWith c "system." = true) :
    WEvent.deleteCall db c ∉ (runWiper f ok s).2.1 ∧
      count_documents (runWiper f ok s).1 db c = count_documents s db c := by
  cases ok with
  | false =>
    constructor
    · intro hmem
      simp [runWiper] at hmem
    · simp [runWiper]
  | true =>
    constructor
    · intro hmem
      simp [runWiper] at hmem
      have h1 := mem_deleteCallsW hmem
      rw [deleteCallsW_processDBs] at h1
      have h2 := (mem_wouldDelete h1).2
      rw [hc] at h2
      exact absurd h2 (by decide)
    · have hst : (runWiper f true s).1 = (processDBs f DATABASES s).1 := by
        simp [runWiper]
      rw [hst]
      exact count_processDBs_system f DATABASES s db c hc

/-- C1 witness: the `system.profile` collection of the listed `inventory`
database in a concrete store. -/
theorem system_collections_never_deleted_witness :
    strStartsWith "system.profile" "system." = true ∧
      (WEvent.deleteCall "inventory" "system.profile" ∉
          (runWiper (fun _ _ => false) true wStore).2.1 ∧
        count_documents (runWiper (fun _ _ => false) true wStore).1
            "inventory" "system.profile" =
          count_documents wStore "inventory" "system.profile") :=
  ⟨by decide,
    system_collections_never_deleted (fun _ _ => false) true wStore
      "inventory" "system.profile" (by decide)⟩

/-- C2: an error raised while deleting one collection of a listed database is
caught and logged, the loop continues (the delete calls issued are exactly
those of a failure-free run over the same store), and the run as a whole
still reports success with exit status zero. -/
theorem per_collection_failure_isolated (f : String → String → Bool) (s : Store)
    (db c : String) (hdb : db ∈ DATABASES) (hc : c ∈ list_collection_names s db)
    (hs : strStartsWith c "system." = false) (hf : f db c = true) :
    WEvent.cleanFailed db c ∈ (runWiper f true s).2.1 ∧
      (runWiper f true s).2.2 = 0 ∧
      WEvent.reportSuccess ∈ (runWiper f true s).2.1 ∧
      deleteCallsW (runWiper f true s).2.1 = wouldDelete s DATABASES := by
  have ht : (runWiper f true s).2.1 =
      (processDBs f DATABASES s).2 ++ [WEvent.reportSuccess, WEvent.closedConn] := by
    simp [runWiper]
  refine ⟨?_, by simp [runWiper], ?_, ?_⟩
  · rw [ht]
    exact List.mem_append.2 (Or.inl (cleanFailed_mem_dbs f DATABASES s db c hdb hc hs hf))
  · rw [ht]
    simp
  · rw [ht, deleteCallsW_append, deleteCallsW_processDBs]
    simp [deleteCallsW]

/-- C2 witness: a failure injected on the `events` collection of the listed
`inventory` database of a concrete store. -/
theorem per_collection_failure_isolated_witness :
    "inventory" ∈ DATABASES ∧
      "events" ∈ list_collection_names wStore "inventory" ∧
      strStartsWith "events" "system." = false ∧
      (fun d c => d == "inventory" && c == "events") "inventory" "events" = true ∧
      (WEvent.cleanFailed "inventory" "events" ∈
          (runWiper (fun d c => d == "inventory" && c == "events") true wStore).2.1 ∧
        (runWiper (fun d c => d == "inventory" && c == "events") true wStore).2.2 = 0 ∧
        WEvent.reportSuccess ∈
          (runWiper (fun d c => d == "inventory" && c == "events") true wStore).2.1 ∧
        deleteCallsW
            (runWiper (fun d c => d == "inventory" && c == "events") true wStore).2.1 =
          wouldDelete wStore DATABASES) :=
  ⟨by decide, by decide, by decide, by decide,
    per_collection_failure_isolated (fun d c => d == "inventory" && c == "events")
      wStore "inventory" "events" (by decide) (by decide) (by decide) (by decide)⟩

/-- C5: a listed database whose collection enumeration is empty is reported
as having no collections, no delete call is issued against it, its document
counts are untouched, and the run continues and reports success with exit
status zero. -/
theorem missing_database_benign_noop (f : String → String → Bool) (s : Store)
    (db : String) (hdb : db ∈ DATABASES) (h : list_collection_names s db = []) :
    WEvent.noCollections db ∈ (runWiper f true s).2.1 ∧
      (∀ c, WEvent.deleteCall db c ∉ (runWiper f true s).2.1) ∧
      (∀ c, count_documents (runWiper f true s).1 db c = count_documents s db c) ∧
      (runWiper f true s).2.2 = 0 ∧
      WEvent.reportSuccess ∈ (runWiper f true s).2.1 := by
  have ht : (runWiper f true s).2.1 =
      (processDBs f DATABASES s).2 ++ [WEvent.reportSuccess, WEvent.closedConn] := by
    simp [runWiper]
  have hst : (runWiper f true s).1 = (processDBs f DATABASES s).1 := by
    simp [runWiper]
  refine ⟨?_, ?_, ?_, by simp [runWiper], ?_⟩
  · rw [ht]
    exact List.mem_append.2 (Or.inl (noCollections_mem f DATABASES s db hdb h))
  · intro c hmem
    rw [ht] at hmem
    rcases List.mem_append.1 hmem with hmem | hmem
    · have h1 := mem_deleteCallsW hmem
      rw [deleteCallsW_processDBs] at h1
      have h2 := (mem_wouldDelete h1).1
      rw [h] at h2
      cases h2
    · simp at hmem
  · intro c
    rw [hst]
    exact count_processDBs_emptydb f DATABASES s db c h
  · rw [ht]
    simp

/-- C5 witness: the listed `payment` database is absent from the concrete
store. -/
theorem missing_database_benign_noop_witness :
    "payment" ∈ DATABASES ∧
      list_collection_names wStore "payment" = [] ∧
      (WEvent.noCollections "payment" ∈
          (runWiper (fun _ _ => false) true wStore).2.1 ∧
        (∀ c, WEvent.deleteCall "payment" c ∉
          (runWiper (fun _ _ => false) true wStore).2.1) ∧
        (∀ c, count_documents (runWiper (fun _ _ => false) true wStore).1 "payment" c =
          count_documents wStore "payment" c) ∧
        (runWiper (fun _ _ => false) true wStore).2.2 = 0 ∧
        WEvent.reportSuccess ∈ (runWiper (fun _ _ => false) true wStore).2.1) :=
  ⟨by decide, by decide,
    missing_database_benign_noop (fun _ _ => false) wStore "payment"
      (by decide) (by decide)⟩

/-- C6: running the Wiper twice (with no injected failures) yields the same
end state as running it once: after one run every enumerated non-system
collection of every listed database holds zero documents, the second run
leaves the store exactly as the first left it, and every per-collection
deletion the second run reports deleted zero documents. -/
theorem run_idempotent (s : Store) :
    (runWiper (fun _ _ => false) true (runWiper (fun _ _ => false) true s).1).1 =
      (runWiper (fun _ _ => false) true s).1 ∧
      (∀ db c, db ∈ DATABASES → c ∈ list_collection_names s db →
        strStartsWith c "system." = false →
        count_documents (runWiper (fun _ _ => false) true s).1 db c = 0) ∧
      (∀ db c n,
        WEvent.deletedOk db c n ∈
          (runWiper (fun _ _ => false) true (runWiper (fun _ _ => false) true s).1).2.1 →
        n = 0) := by
  have hst : ∀ t : Store,
      (runWiper (fun _ _ => false) true t).1 =
        (processDBs (fun _ _ => false) DATABASES t).1 := by
    intro t
    simp [runWiper]
  have hinv : ∀ db c, db ∈ DATABASES →
      c ∈ list_collection_names (processDBs (fun _ _ => false) DATABASES s).1 db →
      strStartsWith c "system." = false → (fun _ _ => false : String → String → Bool) db c = false →
      allZero (processDBs (fun _ _ => false) DATABASES s).1 db c := by
    intro db c hdb hc hs _
    rw [names_processDBs] at hc
    exact est_processDBs _ DATABASES s db c hdb hc hs rfl
  refine ⟨?_, ?_, ?_⟩
  · rw [hst, hst]
    exact id_processDBs _ DATABASES _ hinv
  · intro db c hdb hc hs
    rw [hst]
    exact count_eq_zero_of_allZero _ db c (est_processDBs _ DATABASES s db c hdb hc hs rfl)
  · intro db c n hmem
    have ht2 : (runWiper (fun _ _ => false) true
          (runWiper (fun _ _ => false) true s).1).2.1 =
        (processDBs (fun _ _ => false) DATABASES
            (runWiper (fun _ _ => false) true s).1).2 ++
          [WEvent.reportSuccess, WEvent.closedConn] := by
      simp [runWiper]
    rw [ht2, hst] at hmem
    rcases List.mem_append.1 hmem with hmem | hmem
    · exact ev_processDBs _ DATABASES _ hinv db c n hmem
    · simp at hmem

/-- C6 witness: the idempotence statement instantiated at a concrete store. -/
theorem run_idempotent_witness :
    (runWiper (fun _ _ => false) true (runWiper (fun _ _ => false) true wStore).1).1 =
      (runWiper (fun _ _ => false) true wStore).1 ∧
      (∀ db c, db ∈ DATABASES → c ∈ list_collection_names wStore db →
        strStartsWith c "system." = false →
        count_documents (runWiper (fun _ _ => false) true wStore).1 db c = 0) ∧
      (∀ db c n,
        WEvent.deletedOk db c n ∈
          (runWiper (fun _ _ => false) true
            (runWiper (fun _ _ => false) true wStore).1).2.1 →
        n = 0) :=
  run_idempotent wStore

/-- C8: the Wiper exits with status zero exactly when the connection (and
hence the whole run) succeeds, in which case the last event is closing the
connection; on a connection failure it reports the error and exits with
status 1, leaving the store untouched. -/
theorem exit_status_and_close (f : String → String → Bool) (ok : Bool) (s : Store) :
    ((runWiper f ok s).2.2 = 0 ↔ ok = true) ∧
      (ok = true → (runWiper f ok s).2.1.getLast? = some WEvent.closedConn) ∧
      (ok = false → (runWiper f ok s).2.2 = 1 ∧
        WEvent.connError ∈ (runWiper f ok s).2.1 ∧ (runWiper f ok s).1 = s) := by
  cases ok with
  | false =>
    refine ⟨by simp [runWiper], fun h => absurd h (by decide),
      fun _ => ⟨by simp [runWiper], by simp [runWiper], by simp [runWiper]⟩⟩
  | true =>
    refine ⟨by simp [runWiper], fun _ => ?_, fun h => absurd h (by decide)⟩
    have ht : (runWiper f true s).2.1 =
        ((processDBs f DATABASES s).2 ++ [WEvent.reportSuccess]) ++
          [WEvent.closedConn] := by
      simp [runWiper]
    rw [ht, List.getLast?_concat]

/-- C8 witness: both outcomes instantiated at a concrete store. -/
theorem exit_status_and_close_witness :
    (((runWiper (fun _ _ => false) true wStore).2.2 = 0 ↔ true = true) ∧
      (true = true →
        (runWiper (fun _ _ => false) true wStore).2.1.getLast? =
          some WEvent.closedConn) ∧
      (true = false → (runWiper (fun _ _ => false) true wStore).2.2 = 1 ∧
        WEvent.connError ∈ (runWiper (fun _ _ => false) true wStore).2.1 ∧
        (runWiper (fun _ _ => false) true wStore).1 = wStore)) ∧
      (((runWiper (fun _ _ => false) false wStore).2.2 = 0 ↔ false = true) ∧
        (false = true →
          (runWiper (fun _ _ => false) false wStore).2.1.getLast? =
            some WEvent.closedConn) ∧
        (false = false → (runWiper (fun _ _ => false) false wStore).2.2 = 1 ∧
          WEvent.connError ∈ (runWiper (fun _ _ => false) false wStore).2.1 ∧
          (runWiper (fun _ _ => false) false wStore).1 = wStore)) :=
  ⟨exit_status_and_close (fun _ _ => false) true wStore,
    exit_status_and_close (fun _ _ => false) false wStore⟩

end Wiper

namespace Purger

/-- C7 witness: a concrete store of 250 distinct matching keys with the
confirming answer `"yes"`. -/
theorem run_250_keys_two_progress_witness :
    (keysScan w250).length = 250 ∧ confirmCheck "yes" = true ∧
      ((deleteCallsP (runPurger true "yes" w250).2.1).length = 250 ∧
        progressReports (runPurger true "yes" w250).2.1 = [(100, 250), (200, 250)]) :=
  ⟨by decide, by decide,
    run_250_keys_two_progress "yes" w250 (by decide) (by decide)⟩

end Purger

